import Mathlib

/-!
Verification development for the prompt-manager repository.

The frontend sources under `frontend/src` (the SSE stream reader in
`services/api.ts`, the playground page `TestPrompt`, and the `Settings`
page) are embedded shallowly below; strings are modelled as `List Char`
(`Str`) so that the character-level operations of the JavaScript code
(trim, split, startsWith, substring) can be reasoned about directly.
The FastAPI backend (version bumping, diffing, persistence) is not part
of the provided sources, so the backend operations are modelled from the
specification where needed; those definitions say so in their doc
comments.
-/

namespace PromptManager

/-- Strings of the JavaScript runtime, modelled as lists of characters. -/
abbrev Str := List Char

/-- Whitespace characters (the common members of the JavaScript `\s`
class and of `String.prototype.trim`'s whitespace set). -/
def isWs (c : Char) : Bool :=
  c == ' ' || c == '\t' || c == '\n' || c == '\r' || c == '\x0b' || c == '\x0c'

/-- Characters matched by the JavaScript regular-expression dot `.`
(without the `s` flag): everything except line terminators. -/
def isDotChar (c : Char) : Bool :=
  !(c == '\n' || c == '\r')

/-- `String.prototype.trim`: drop leading and trailing whitespace. -/
def trimChars (l : Str) : Str :=
  ((l.dropWhile isWs).reverse.dropWhile isWs).reverse

/-- `String.prototype.startsWith(pat)` on character lists. -/
def hasPre : Str → Str → Bool
  | [], _ => true
  | _ :: _, [] => false
  | a :: pat, b :: l => a == b && hasPre pat l

/-- `String.prototype.split('\n')`. -/
def splitOnNl : Str → List Str
  | [] => [[]]
  | c :: rest =>
    if c = '\n' then [] :: splitOnNl rest
    else
      match splitOnNl rest with
      | [] => [[c]]
      | l :: ls => (c :: l) :: ls

theorem hasPre_iff (pat l : Str) : hasPre pat l = true ↔ ∃ t, l = pat ++ t := by
  induction pat generalizing l with
  | nil => simp [hasPre]
  | cons a pat ih =>
    cases l with
    | nil => simp [hasPre]
    | cons b l' =>
      simp only [hasPre, Bool.and_eq_true, beq_iff_eq]
      constructor
      · rintro ⟨rfl, h⟩
        obtain ⟨t, rfl⟩ := (ih l').mp h
        exact ⟨t, rfl⟩
      · rintro ⟨t, ht⟩
        simp only [List.cons_append, List.cons.injEq] at ht
        obtain ⟨rfl, rfl⟩ := ht
        exact ⟨rfl, (ih _).mpr ⟨t, rfl⟩⟩

theorem trimChars_decomposition (l : Str) :
    ∃ u v, l = u ++ trimChars l ++ v ∧ u.all isWs ∧ v.all isWs := by
  refine ⟨l.takeWhile isWs, ((l.dropWhile isWs).reverse.takeWhile isWs).reverse, ?_, ?_, ?_⟩
  · have h2 : trimChars l ++ ((l.dropWhile isWs).reverse.takeWhile isWs).reverse
        = l.dropWhile isWs := by
      unfold trimChars
      rw [← List.reverse_append, List.takeWhile_append_dropWhile, List.reverse_reverse]
    rw [List.append_assoc, h2, List.takeWhile_append_dropWhile]
  · simp only [List.all_eq_true]
    exact fun c hc => List.mem_takeWhile_imp hc
  · simp only [List.all_eq_true]
    intro c hc
    rw [List.mem_reverse] at hc
    exact List.mem_takeWhile_imp hc

theorem trimChars_sublist (l : Str) : (trimChars l).Sublist l := by
  obtain ⟨u, v, h, -, -⟩ := trimChars_decomposition l
  conv_rhs => rw [h, List.append_assoc]
  exact (List.sublist_append_left _ v).trans (List.sublist_append_right u _)

/-! ## SSE stream reader (`frontend/src/services/api.ts`, `testPromptStream`)

The reader consumes decoded byte chunks, splits each chunk on `'\n'`,
trims each line, skips blank lines, and for lines starting with `data:`
takes the payload after the colon, removes at most one leading space,
and — if the payload is non-empty — delivers either the `text` field of
a parsed JSON object payload or the raw payload. `JSON.parse` is a
platform primitive; it is abstracted as a `parse` parameter returning an
abstract JSON value. -/

/-- Abstract JSON values (the possible results of `JSON.parse`); an
object's fields are its de-duplicated key/value pairs. -/
inductive Json where
  | null : Json
  | bool (b : Bool) : Json
  | num (q : ℚ) : Json
  | str (s : Str) : Json
  | arr (elems : List Json) : Json
  | obj (fields : List (Str × Json)) : Json

/-- What a `data:` line delivers to the `onData` callback: the value of
the JSON envelope's `text` field, or the raw payload text. -/
inductive ChunkOut where
  | fromJson (v : Json) : ChunkOut
  | raw (s : Str) : ChunkOut

/-- `if (content.startsWith(' ')) content = content.substring(1)`. -/
def stripOneSpace : Str → Str
  | ' ' :: rest => rest
  | l => l

/-- The characters of `"data:"`. -/
def dataColon : Str := ['d', 'a', 't', 'a', ':']

/-- First-match field lookup in a JSON object (`json.text` after
`'text' in json`). -/
def getField : List (Str × Json) → Str → Option Json
  | [], _ => none
  | (k, v) :: rest, key => if k = key then some v else getField rest key

/-- `json && typeof json === 'object' && 'text' in json ? json.text`:
the `text` field of an object value, and `none` for every other value. -/
def jsonHasText : Json → Option Json
  | Json.obj fields => getField fields ['t', 'e', 'x', 't']
  | _ => none

/-- Handling of the payload of one `data:` line (after the
at-most-one-space strip): empty payloads are dropped, a JSON object with
a `text` field delivers that field, everything else delivers the raw
payload. -/
def processContent (parse : Str → Option Json) (content : Str) : Option ChunkOut :=
  if content = [] then none
  else
    match parse content with
    | some j =>
      match jsonHasText j with
      | some v => some (ChunkOut.fromJson v)
      | none => some (ChunkOut.raw content)
    | none => some (ChunkOut.raw content)

/-- Handling of one line of a chunk: trim, skip blank lines, and process
`data:` lines. -/
def processLine (parse : Str → Option Json) (line : Str) : Option ChunkOut :=
  let t := trimChars line
  if t = [] then none
  else if hasPre dataColon t then processContent parse (stripOneSpace (t.drop 5))
  else none

/-- Handling of one decoded chunk: split on newlines and process each
line in order. -/
def processChunk (parse : Str → Option Json) (chunk : Str) : List ChunkOut :=
  ((splitOnNl chunk).map (processLine parse)).reduceOption

/-- Events observable on the callbacks of `testPromptStream`. -/
inductive StreamEvent where
  | data (c : ChunkOut) : StreamEvent
  | complete : StreamEvent
  | failed (msg : Str) : StreamEvent

/-- Whether an event is the completion callback. -/
def isComplete : StreamEvent → Bool
  | StreamEvent.complete => true
  | _ => false

/-- How the upstream fetch ends: normal completion of the body reader,
a thrown error, or a client-initiated abort (whose `AbortError` is
swallowed). -/
inductive Termination where
  | normal : Termination
  | errored (msg : Str) : Termination
  | aborted : Termination

/-- The full observable callback trace of `testPromptStream` for a
given sequence of decoded chunks and a termination mode: each chunk's
`data:` lines are delivered in order via `onData`; after the last chunk
`onComplete` fires on normal termination, `onError` fires on an error,
and nothing fires after an abort. -/
def runStream (parse : Str → Option Json) (chunks : List Str) (t : Termination) :
    List StreamEvent :=
  ((chunks.map (fun c => (processChunk parse c).map StreamEvent.data)).flatten) ++
    (match t with
     | Termination.normal => [StreamEvent.complete]
     | Termination.errored m => [StreamEvent.failed m]
     | Termination.aborted => [])

/-- Projection of a stream event onto its delivered chunk, if any. -/
def dataOf : StreamEvent → Option ChunkOut
  | StreamEvent.data c => some c
  | _ => none

theorem complete_not_mem_data_events (parse : Str → Option Json) (chunks : List Str) :
    StreamEvent.complete ∉
      (chunks.map (fun c => (processChunk parse c).map StreamEvent.data)).flatten := by
  intro h
  rw [List.mem_flatten] at h
  obtain ⟨l, hl, hmem⟩ := h
  rw [List.mem_map] at hl
  obtain ⟨c, -, rfl⟩ := hl
  rw [List.mem_map] at hmem
  obtain ⟨x, -, hx⟩ := hmem
  exact StreamEvent.noConfusion hx

/-- C2: the stream reader delivers the `data:` chunks in exactly the
order they arrive, invokes completion exactly once on normal
termination, and never invokes completion after an error or an abort. -/
theorem stream_order_and_single_completion (parse : Str → Option Json)
    (chunks : List Str) (t : Termination) :
    (runStream parse chunks t).filterMap dataOf
        = (chunks.map (processChunk parse)).flatten ∧
    (runStream parse chunks t).countP isComplete
        = (match t with | Termination.normal => 1 | _ => 0) ∧
    (∀ m, t = Termination.errored m → StreamEvent.complete ∉ runStream parse chunks t) ∧
    (t = Termination.aborted → StreamEvent.complete ∉ runStream parse chunks t) := by
  refine ⟨?_, ?_, ?_, ?_⟩
  · unfold runStream
    rw [List.filterMap_append]
    have h1 : ((chunks.map (fun c => (processChunk parse c).map StreamEvent.data)).flatten).filterMap
        dataOf = (chunks.map (processChunk parse)).flatten := by
      induction chunks with
      | nil => simp
      | cons c cs ih =>
        rw [List.map_cons, List.flatten_cons, List.filterMap_append, ih,
          List.map_cons, List.flatten_cons]
        congr 1
        rw [List.filterMap_map]
        have h2 : dataOf ∘ StreamEvent.data = some := by
          funext x; rfl
        rw [h2, List.filterMap_some]
    rw [h1]
    cases t <;> simp [dataOf]
  · unfold runStream
    rw [List.countP_append]
    have h0 : ((chunks.map (fun c => (processChunk parse c).map StreamEvent.data)).flatten).countP
        isComplete = 0 := by
      rw [List.countP_eq_zero]
      intro e he
      rw [List.mem_flatten] at he
      obtain ⟨l, hl, hmem⟩ := he
      rw [List.mem_map] at hl
      obtain ⟨c, -, rfl⟩ := hl
      rw [List.mem_map] at hmem
      obtain ⟨x, -, rfl⟩ := hmem
      simp [isComplete]
    rw [h0]
    cases t <;> rfl
  · intro m hm hmem
    subst hm
    unfold runStream at hmem
    rw [List.mem_append] at hmem
    rcases hmem with h | h
    · exact complete_not_mem_data_events parse chunks h
    · simp at h
  · intro hm hmem
    subst hm
    unfold runStream at hmem
    rw [List.mem_append] at hmem
    rcases hmem with h | h
    · exact complete_not_mem_data_events parse chunks h
    · simp at h

/-- The `text` field delivered for a payload, when the payload parses as
a JSON object carrying one. -/
def jsonTextOf (parse : Str → Option Json) (content : Str) : Option Json :=
  (parse content).bind jsonHasText

/-- C3: for every `data:` line, at most one leading space is stripped
from the payload after the colon; a payload parsing as a JSON object
with a `text` field delivers exactly that field's value; any other
non-empty payload is delivered raw; an empty payload produces no
callback. -/
theorem data_line_payload_handling (parse : Str → Option Json) (line : Str)
    (hdata : hasPre dataColon (trimChars line) = true) :
    (∀ r : Str, stripOneSpace (' ' :: ' ' :: r) = ' ' :: r) ∧
    (∀ r : Str, stripOneSpace (' ' :: r) = r) ∧
    (stripOneSpace ((trimChars line).drop 5) = [] → processLine parse line = none) ∧
    (∀ fields v, stripOneSpace ((trimChars line).drop 5) ≠ [] →
      parse (stripOneSpace ((trimChars line).drop 5)) = some (Json.obj fields) →
      getField fields ['t', 'e', 'x', 't'] = some v →
      processLine parse line = some (ChunkOut.fromJson v)) ∧
    (stripOneSpace ((trimChars line).drop 5) ≠ [] →
      jsonTextOf parse (stripOneSpace ((trimChars line).drop 5)) = none →
      processLine parse line = some (ChunkOut.raw (stripOneSpace ((trimChars line).drop 5)))) := by
  obtain ⟨tl, ht⟩ := (hasPre_iff dataColon (trimChars line)).mp hdata
  have hne : trimChars line ≠ [] := by
    rw [ht]; simp [dataColon]
  have hpl : processLine parse line
      = processContent parse (stripOneSpace ((trimChars line).drop 5)) := by
    simp only [processLine]
    rw [if_neg hne, if_pos hdata]
  refine ⟨fun r => rfl, fun r => rfl, ?_, ?_, ?_⟩
  · intro h0
    rw [hpl]
    unfold processContent
    rw [if_pos h0]
  · intro fields v hne2 hp hg
    rw [hpl]
    unfold processContent
    rw [if_neg hne2, hp]
    simp [jsonHasText, hg]
  · intro hne2 hnone
    rw [hpl]
    unfold processContent
    rw [if_neg hne2]
    unfold jsonTextOf at hnone
    cases hp : parse (stripOneSpace ((trimChars line).drop 5)) with
    | none => rfl
    | some j =>
      rw [hp] at hnone
      rw [Option.some_bind] at hnone
      simp [hnone]

/-- Witness for C3 at a concrete line: `"data:  hi"` (two spaces after
the colon) delivers the raw payload with exactly one space stripped. -/
theorem data_line_payload_handling_witness :
    processLine (fun _ => none) ['d', 'a', 't', 'a', ':', ' ', ' ', 'h', 'i']
      = some (ChunkOut.raw [' ', 'h', 'i']) := by
  exact (data_line_payload_handling (fun _ => none) _ (by decide)).2.2.2.2 (by decide) rfl

/-! ## Playground test-history persistence (`TestPrompt` page,
`persistHistory`)

After a stream completes, `persistHistory` saves the exchange through
the API and reconciles the client-side `histories` list with
`[saved, ...prev.filter(item => item.id !== saved.id)].slice(0, 30)`;
it bails out first when no prompt id is present or the final response is
empty after trimming. -/

/-- A saved playground test session as the client sees it (the fields
relevant to list reconciliation). -/
structure TestHistoryRec where
  id : String
  title : String
  response : Str
deriving DecidableEq

/-- The retention count of the client-side history list. -/
def historyRetention : Nat := 30

/-- `setHistories(prev => [saved, ...prev.filter(item => item.id !==
saved.id)].slice(0, 30))`. -/
def persistHistoryUpdate (saved : TestHistoryRec) (prev : List TestHistoryRec) :
    List TestHistoryRec :=
  (saved :: prev.filter (fun item => item.id ≠ saved.id)).take historyRetention

/-- `if (!id || !finalResponse.trim()) return;` followed by the save and
the list update: returns whether a record was saved together with the
resulting history list. -/
def persistHistoryStep (promptId : Option String) (finalResponse : Str)
    (saved : TestHistoryRec) (prev : List TestHistoryRec) :
    Bool × List TestHistoryRec :=
  if promptId.isNone ∨ trimChars finalResponse = [] then (false, prev)
  else (true, persistHistoryUpdate saved prev)

/-- C1: after each save the client-side history list holds at most 30
records, the newest saved record first; the retained older records are
a prefix (the newest ones) of the prior list, so the oldest are evicted
first; and any sequence of saves keeps the list within the retention
count. -/
theorem history_retention_invariant (saved : TestHistoryRec) (prev : List TestHistoryRec) :
    (persistHistoryUpdate saved prev).length ≤ 30 ∧
    (persistHistoryUpdate saved prev).head? = some saved ∧
    (persistHistoryUpdate saved prev).tail
        <+: prev.filter (fun item => item.id ≠ saved.id) ∧
    (∀ (recs : List TestHistoryRec) (init : List TestHistoryRec), init.length ≤ 30 →
      (recs.foldl (fun h r => persistHistoryUpdate r h) init).length ≤ 30) := by
  refine ⟨?_, ?_, ?_, ?_⟩
  · unfold persistHistoryUpdate historyRetention
    exact (List.length_take_le _ _)
  · unfold persistHistoryUpdate historyRetention
    rw [List.take_cons]
    · rfl
    · omega
  · unfold persistHistoryUpdate historyRetention
    rw [List.take_cons]
    · exact List.take_prefix _ _
    · omega
  · intro recs
    induction recs with
    | nil => intro init h; simpa using h
    | cons r rs ih =>
      intro init _
      rw [List.foldl_cons]
      exact ih _ (by
        unfold persistHistoryUpdate historyRetention
        exact List.length_take_le _ _)

/-- Witness for C1's sequence clause: three saves starting from the
empty list stay within the retention count. -/
theorem history_retention_invariant_witness :
    ([({ id := "a", title := "", response := [] } : TestHistoryRec),
      { id := "b", title := "", response := [] },
      { id := "a", title := "", response := ['x'] }].foldl
        (fun h r => persistHistoryUpdate r h) []).length ≤ 30 := by
  exact (history_retention_invariant { id := "a", title := "", response := [] } []).2.2.2
    _ [] (by decide)

/-- C9: a playground exchange is persisted only when a prompt id is
present and the final response is non-empty after trimming; otherwise
nothing is saved and the history list is unchanged. -/
theorem persist_only_nonempty_response (promptId : Option String) (finalResponse : Str)
    (saved : TestHistoryRec) (prev : List TestHistoryRec) :
    ((persistHistoryStep promptId finalResponse saved prev).1 = true ↔
      promptId.isSome = true ∧ trimChars finalResponse ≠ []) ∧
    (trimChars finalResponse = [] →
      persistHistoryStep promptId finalResponse saved prev = (false, prev)) ∧
    (promptId = none →
      persistHistoryStep promptId finalResponse saved prev = (false, prev)) ∧
    ((persistHistoryStep promptId finalResponse saved prev).1 = false →
      (persistHistoryStep promptId finalResponse saved prev).2 = prev) := by
  refine ⟨?_, ?_, ?_, ?_⟩
  · unfold persistHistoryStep
    by_cases h : promptId.isNone ∨ trimChars finalResponse = []
    · rw [if_pos h]
      constructor
      · intro hfalse
        exact Bool.noConfusion hfalse
      · rintro ⟨h1, h2⟩
        exfalso
        rcases h with h | h
        · rw [Option.isNone_iff_eq_none] at h
          rw [h] at h1
          exact Bool.noConfusion h1
        · exact h2 h
    · rw [if_neg h]
      push_neg at h
      obtain ⟨h1, h2⟩ := h
      have hsome : promptId.isSome = true := by
        cases promptId with
        | none => exact absurd rfl h1
        | some x => rfl
      exact ⟨fun _ => ⟨hsome, h2⟩, fun _ => rfl⟩
  · intro h
    unfold persistHistoryStep
    rw [if_pos (Or.inr h)]
  · intro h
    unfold persistHistoryStep
    rw [if_pos (Or.inl (by rw [h]; rfl))]
  · unfold persistHistoryStep
    by_cases h : promptId.isNone ∨ trimChars finalResponse = []
    · rw [if_pos h]
      intro
      rfl
    · rw [if_neg h]
      intro hfalse
      exact Bool.noConfusion hfalse

/-- Witness for C9: an exchange cancelled before any chunk arrived (the
response is empty) leaves the history list unchanged. -/
theorem persist_only_nonempty_response_witness :
    persistHistoryStep (some "prompt-1") []
        { id := "a", title := "", response := [] }
        [{ id := "b", title := "", response := ['x'] }]
      = (false, [{ id := "b", title := "", response := ['x'] }]) := by
  exact (persist_only_nonempty_response (some "prompt-1") []
    { id := "a", title := "", response := [] }
    [{ id := "b", title := "", response := ['x'] }]).2.1 rfl

/-! ## Playground stream session (`TestPrompt` page, `handleTest`)

The page keeps a single nullable abort handle (`streamAbort`) and a
`loading` flag. Clicking the test button while loading aborts the
current stream and clears the handle; clicking while idle starts one new
stream and stores its abort handle; a stream's completion or error
callback clears both. Streams are identified by the order in which they
were started. -/

/-- The stream-related UI state of the playground page. `active` lists
the streams that have been started and not yet completed, errored or
aborted (newest first). -/
structure UIState where
  loading : Bool
  streamAbort : Option Nat
  active : List Nat
  nextId : Nat
deriving DecidableEq

/-- The initial page state: idle, no abort handle, no stream. -/
def initUIState : UIState :=
  { loading := false, streamAbort := none, active := [], nextId := 0 }

/-- One UI event of `handleTest` and of the stream callbacks. -/
inductive UIStep : UIState → UIState → Prop
  /-- Clicking the button while loading with a stored handle: abort the
  stream, clear the handle, stop loading, and start nothing. -/
  | stopTest (st : UIState) (h : Nat) :
      st.loading = true → st.streamAbort = some h →
      UIStep st { st with loading := false, streamAbort := none,
                          active := st.active.erase h }
  /-- Clicking the button while loading without a handle: only stop
  loading. -/
  | stopTestNoHandle (st : UIState) :
      st.loading = true → st.streamAbort = none →
      UIStep st { st with loading := false }
  /-- Clicking the button while idle: start one new stream and store its
  abort handle. -/
  | startTest (st : UIState) :
      st.loading = false →
      UIStep st { loading := true, streamAbort := some st.nextId,
                  active := st.nextId :: st.active, nextId := st.nextId + 1 }
  /-- `onComplete` of a still-active stream: stop loading and clear the
  handle. -/
  | streamComplete (st : UIState) (i : Nat) :
      i ∈ st.active →
      UIStep st { st with loading := false, streamAbort := none,
                          active := st.active.erase i }
  /-- `onError` of a still-active stream: stop loading and clear the
  handle. -/
  | streamError (st : UIState) (i : Nat) :
      i ∈ st.active →
      UIStep st { st with loading := false, streamAbort := none,
                          active := st.active.erase i }

/-- States reachable from the initial page state. -/
inductive ReachableUI : UIState → Prop
  | init : ReachableUI initUIState
  | step (st st' : UIState) : ReachableUI st → UIStep st st' → ReachableUI st'

/-- The session invariant: the abort handle tracks exactly the active
stream, and at most one stream is active. -/
def sessionInv (st : UIState) : Prop :=
  (∀ i, st.streamAbort = some i → st.active = [i]) ∧
  (st.streamAbort = none → st.active = []) ∧
  st.loading = st.streamAbort.isSome

theorem sessionInv_init : sessionInv initUIState := by
  refine ⟨?_, ?_, rfl⟩
  · intro i h
    exact Option.noConfusion h
  · intro
    rfl

theorem sessionInv_preserved (st st' : UIState) (hinv : sessionInv st)
    (hstep : UIStep st st') : sessionInv st' := by
  obtain ⟨habort, hnone, hload⟩ := hinv
  cases hstep with
  | stopTest h hl ha =>
    refine ⟨?_, ?_, rfl⟩
    · intro i hi
      exact Option.noConfusion hi
    · intro
      show (st.active).erase h = []
      rw [habort h ha]
      simp
  | stopTestNoHandle hl ha =>
    rw [hl, ha] at hload
    exact Bool.noConfusion hload
  | startTest hl =>
    have ha : st.streamAbort = none := by
      rw [hl] at hload
      cases hab : st.streamAbort with
      | none => rfl
      | some x => rw [hab] at hload; exact Bool.noConfusion hload
    refine ⟨?_, ?_, rfl⟩
    · intro i hi
      simp only [Option.some.injEq] at hi
      show st.nextId :: st.active = [i]
      rw [← hi, hnone ha]
    · intro hcontra
      exact Option.noConfusion hcontra
  | streamComplete i hi =>
    refine ⟨?_, ?_, rfl⟩
    · intro j hj
      exact Option.noConfusion hj
    · intro
      show (st.active).erase i = []
      cases hab : st.streamAbort with
      | none => rw [hnone hab] at hi; exact absurd hi (List.not_mem_nil i)
      | some x =>
        rw [habort x hab] at hi ⊢
        rw [List.mem_singleton] at hi
        rw [hi]
        simp
  | streamError i hi =>
    refine ⟨?_, ?_, rfl⟩
    · intro j hj
      exact Option.noConfusion hj
    · intro
      show (st.active).erase i = []
      cases hab : st.streamAbort with
      | none => rw [hnone hab] at hi; exact absurd hi (List.not_mem_nil i)
      | some x =>
        rw [habort x hab] at hi ⊢
        rw [List.mem_singleton] at hi
        rw [hi]
        simp

theorem reachable_sessionInv (st : UIState) (h : ReachableUI st) : sessionInv st := by
  induction h with
  | init => exact sessionInv_init
  | step st st' _ hstep ih => exact sessionInv_preserved st st' ih hstep

/-- C8: in every reachable playground state at most one stream is
active (so at most one abort handle exists), and while a stream is
active the stored abort handle refers to exactly that stream, so the
stop branch of `handleTest` cancels it — leaving no active stream —
without starting a new one. -/
theorem single_active_stream (st : UIState) (h : ReachableUI st) :
    st.active.length ≤ 1 ∧
    (st.loading = true → ∃ i, st.streamAbort = some i ∧ st.active = [i] ∧
      UIStep st { st with loading := false, streamAbort := none, active := [] }) ∧
    (st.loading = false → ∀ st', UIStep st st' →
      st' = { loading := true, streamAbort := some st.nextId,
              active := [st.nextId], nextId := st.nextId + 1 }) := by
  obtain ⟨habort, hnone, hload⟩ := reachable_sessionInv st h
  refine ⟨?_, ?_, ?_⟩
  · cases hab : st.streamAbort with
    | none => rw [hnone hab]; simp
    | some x => rw [habort x hab]; simp
  · intro hl
    cases hab : st.streamAbort with
    | none => rw [hab, hl] at hload; exact Bool.noConfusion hload
    | some x =>
      refine ⟨x, rfl, habort x hab, ?_⟩
      have hx := UIStep.stopTest st x hl hab
      have herase : (st.active).erase x = [] := by
        rw [habort x hab]
        simp
      rw [herase] at hx
      exact hx
  · intro hl st' hstep
    have ha : st.streamAbort = none := by
      rw [hl] at hload
      cases hab : st.streamAbort with
      | none => rfl
      | some x => rw [hab] at hload; exact Bool.noConfusion hload
    cases hstep with
    | stopTest h2 hl2 ha2 => rw [hl] at hl2; exact Bool.noConfusion hl2
    | stopTestNoHandle hl2 ha2 => rw [hl] at hl2; exact Bool.noConfusion hl2
    | startTest hl2 =>
      rw [hnone ha]
    | streamComplete i hi =>
      rw [hnone ha] at hi
      exact absurd hi (List.not_mem_nil i)
    | streamError i hi =>
      rw [hnone ha] at hi
      exact absurd hi (List.not_mem_nil i)

/-- Witness for C8 at the initial state: no stream is active, and the
only possible click is the one that starts a single stream. -/
theorem single_active_stream_witness :
    initUIState.active.length ≤ 1 ∧
    (initUIState.loading = false → ∀ st', UIStep initUIState st' →
      st' = { loading := true, streamAbort := some initUIState.nextId,
              active := [initUIState.nextId], nextId := initUIState.nextId + 1 }) := by
  have h := single_active_stream initUIState ReachableUI.init
  exact ⟨h.1, h.2.2⟩

/-! ## Settings page provider operations (`Settings` page)

`normalizeProviders` walks the list with a `defaultAssigned` flag and an
index; `handleSetDefault` marks the matching id; `handleRemoveProvider`
filters out the id, replacing an emptied list with a fresh default
provider and otherwise promoting the first entry when no default
remains. -/

/-- An LLM provider configuration entry (`LLMProvider`). -/
structure Provider where
  id : String
  name : String
  vendor : String
  api_key : String
  api_url : String
  model : String
  system_prompt : String
  is_default : Bool
deriving DecidableEq

/-- `createEmptyProvider(isDefault)`; the generated random UUID is a
parameter. -/
def createEmptyProvider (freshId : String) (isDefault : Bool) : Provider :=
  { id := freshId, name := "", vendor := "custom", api_key := "",
    api_url := "https://dashscope.aliyuncs.com/compatible-mode/v1/chat/completions",
    model := "", system_prompt := "", is_default := isDefault }

/-- The indexed walk of `normalizeProviders` carrying the
`defaultAssigned` flag. -/
def normalizeGo (assigned : Bool) (idx : Nat) : List Provider → List Provider
  | [] => []
  | p :: rest =>
    if p.is_default then
      if assigned then { p with is_default := false } :: normalizeGo true (idx + 1) rest
      else p :: normalizeGo true (idx + 1) rest
    else if !assigned && idx == 0 then
      { p with is_default := true } :: normalizeGo true (idx + 1) rest
    else p :: normalizeGo assigned (idx + 1) rest

/-- `normalizeProviders`: an empty list is returned as is, otherwise the
indexed walk runs with no default assigned yet. -/
def normalizeProviders (providers : List Provider) : List Provider :=
  if providers = [] then providers else normalizeGo false 0 providers

/-- `handleSetDefault(id)`: mark exactly the matching id as default. -/
def handleSetDefault (targetId : String) (providers : List Provider) : List Provider :=
  providers.map (fun p => { p with is_default := p.id == targetId })

/-- `handleRemoveProvider(id)`: drop the matching entry; replace an
emptied list with a fresh default provider; if no default remains,
promote the first entry. -/
def handleRemoveProvider (removeId : String) (freshId : String)
    (providers : List Provider) : List Provider :=
  let filtered := providers.filter (fun p => p.id ≠ removeId)
  if filtered = [] then [createEmptyProvider freshId true]
  else if !(filtered.any (fun p => p.is_default)) then
    match filtered with
    | [] => []
    | q :: rest => { q with is_default := true } :: rest
  else filtered

/-- The number of providers marked as default. -/
def countDefaults (providers : List Provider) : Nat :=
  (providers.filter (fun p => p.is_default)).length

theorem normalizeGo_assigned_flags (rest : List Provider) (idx : Nat) (h : 1 ≤ idx) :
    (normalizeGo true idx rest).map (fun p => p.is_default)
      = rest.map (fun _ => false) := by
  induction rest generalizing idx with
  | nil => rfl
  | cons p ps ih =>
    unfold normalizeGo
    by_cases hp : p.is_default
    · rw [if_pos hp, if_pos rfl]
      simp only [List.map_cons]
      rw [ih (idx + 1) (by omega)]
    · rw [if_neg hp]
      have hcond : (!true && idx == 0) = false := by simp
      rw [hcond, if_neg (by simp)]
      simp only [List.map_cons]
      rw [ih (idx + 1) (by omega)]
      congr 1
      simp only [Bool.not_eq_true] at hp
      exact hp

theorem normalizeProviders_flags (p : Provider) (rest : List Provider) :
    (normalizeProviders (p :: rest)).map (fun q => q.is_default)
      = true :: rest.map (fun _ => false) := by
  unfold normalizeProviders
  rw [if_neg (by simp)]
  unfold normalizeGo
  by_cases hp : p.is_default
  · rw [if_pos hp]
    rw [if_neg (by simp)]
    simp only [List.map_cons]
    rw [normalizeGo_assigned_flags rest 1 (by omega), hp]
  · rw [if_neg hp]
    rw [if_pos (by simp)]
    simp only [List.map_cons]
    rw [normalizeGo_assigned_flags rest 1 (by omega)]

theorem countDefaults_eq_count_true (l : List Provider) :
    countDefaults l = (l.map (fun p => p.is_default)).count true := by
  induction l with
  | nil => rfl
  | cons p ps ih =>
    unfold countDefaults at ih ⊢
    cases hp : p.is_default <;>
      simp [List.filter_cons, List.count_cons, hp, ih]

theorem countDefaults_normalize (l : List Provider) (h : l ≠ []) :
    countDefaults (normalizeProviders l) = 1 := by
  cases l with
  | nil => exact absurd rfl h
  | cons p rest =>
    rw [countDefaults_eq_count_true, normalizeProviders_flags]
    rw [List.count_cons_self]
    have : (rest.map (fun _ => false)).count true = 0 := by
      rw [List.count_eq_zero]
      intro hmem
      rw [List.mem_map] at hmem
      obtain ⟨x, -, hx⟩ := hmem
      exact Bool.noConfusion hx
    rw [this]

theorem countDefaults_setDefault (targetId : String) (l : List Provider)
    (h : (l.map (fun p => p.id)).count targetId = 1) :
    countDefaults (handleSetDefault targetId l) = 1 := by
  induction l with
  | nil => simp at h
  | cons p ps ih =>
    unfold handleSetDefault at ih ⊢
    rw [List.map_cons]
    by_cases hp : p.id = targetId
    · rw [List.map_cons, hp, List.count_cons_self] at h
      unfold countDefaults
      rw [List.filter_cons_of_pos (by simp [hp])]
      rw [List.length_cons]
      have hzero : ((ps.map fun q => { q with is_default := q.id == targetId }).filter
          (fun q => q.is_default)).length = 0 := by
        rw [List.length_eq_zero, List.filter_eq_nil_iff]
        intro q hq
        rw [List.mem_map] at hq
        obtain ⟨q0, hq0, rfl⟩ := hq
        simp only
        have hne : q0.id ≠ targetId := by
          intro heq
          have hpos : 0 < (ps.map (fun p => p.id)).count targetId :=
            List.count_pos_iff.mpr (by rw [List.mem_map]; exact ⟨q0, hq0, heq⟩)
          omega
        simp [hne]
      omega
    · rw [List.map_cons, List.count_cons_of_ne (by simpa using Ne.symm hp)] at h
      unfold countDefaults
      rw [List.filter_cons_of_neg (by simp [hp])]
      exact ih h

theorem countDefaults_filter_le (l : List Provider) (q : Provider → Bool) :
    countDefaults (l.filter q) ≤ countDefaults l := by
  induction l with
  | nil => exact Nat.le_refl 0
  | cons p ps ih =>
    unfold countDefaults at ih ⊢
    by_cases hq : q p
    · rw [List.filter_cons_of_pos hq]
      by_cases hp : p.is_default
      · rw [List.filter_cons_of_pos (by simpa using hp),
          List.filter_cons_of_pos (by simpa using hp)]
        simpa using ih
      · rw [List.filter_cons_of_neg (by simpa using hp),
          List.filter_cons_of_neg (by simpa using hp)]
        exact ih
    · rw [List.filter_cons_of_neg hq]
      by_cases hp : p.is_default
      · rw [List.filter_cons_of_pos (by simpa using hp)]
        exact Nat.le_succ_of_le ih
      · rw [List.filter_cons_of_neg (by simpa using hp)]
        exact ih

theorem countDefaults_remove (removeId freshId : String) (l : List Provider)
    (h : countDefaults l = 1) :
    countDefaults (handleRemoveProvider removeId freshId l) = 1 := by
  unfold handleRemoveProvider
  by_cases hempty : l.filter (fun p => p.id ≠ removeId) = []
  · rw [if_pos hempty]
    rfl
  · rw [if_neg hempty]
    by_cases hany : (l.filter (fun p => p.id ≠ removeId)).any (fun p => p.is_default)
    · simp only [hany, Bool.not_true]
      rw [if_neg (by simp)]
      have hle : countDefaults (l.filter (fun p => p.id ≠ removeId)) ≤ 1 := by
        rw [← h]
        exact countDefaults_filter_le l _
      have hpos : 0 < countDefaults (l.filter (fun p => p.id ≠ removeId)) := by
        rw [List.any_eq_true] at hany
        obtain ⟨p, hp, hpd⟩ := hany
        unfold countDefaults
        exact List.length_pos.mpr
          (List.ne_nil_of_mem (List.mem_filter.mpr ⟨hp, hpd⟩))
      omega
    · rw [Bool.not_eq_true] at hany
      simp only [hany, Bool.not_false]
      rw [if_pos trivial]
      cases hf : l.filter (fun p => p.id ≠ removeId) with
      | nil => exact absurd hf hempty
      | cons q rest =>
        rw [hf] at hany
        rw [List.any_eq_false] at hany
        unfold countDefaults
        rw [List.filter_cons_of_pos (by simp)]
        rw [List.length_cons]
        have : (rest.filter (fun p => p.is_default)).length = 0 := by
          rw [List.length_eq_zero, List.filter_eq_nil_iff]
          intro r hr
          simpa using hany r (List.mem_cons_of_mem q hr)
        omega

/-- C10 counterexample: with a non-default first provider followed by a
marked-default second provider, normalization clears the first marked
default (the second provider) and promotes the first provider instead of
keeping the marked one. -/
theorem normalize_does_not_keep_first_marked_default :
    ([createEmptyProvider "a" false, createEmptyProvider "b" true].map
        (fun p => p.is_default) = [false, true]) ∧
    (normalizeProviders [createEmptyProvider "a" false, createEmptyProvider "b" true]).map
        (fun p => p.is_default) ≠ [false, true] ∧
    (normalizeProviders [createEmptyProvider "a" false, createEmptyProvider "b" true]).map
        (fun p => p.is_default) = [true, false] := by
  refine ⟨rfl, ?_, by decide⟩
  intro h
  have h2 : (normalizeProviders [createEmptyProvider "a" false,
      createEmptyProvider "b" true]).map (fun p => p.is_default) = [true, false] := by decide
  rw [h2] at h
  simp at h

/-- C10 (amended): every non-empty provider list produced by the
settings operations has exactly one default: normalization always makes
the first provider the sole default — keeping its mark if set and
otherwise promoting it while clearing every other mark (it does not
keep a marked default that sits after an unmarked first provider) —
set-default with an id occurring exactly once yields one default, and
removal from a list with exactly one default yields one default. -/
theorem providers_single_default (l : List Provider) :
    (l ≠ [] → countDefaults (normalizeProviders l) = 1) ∧
    (∀ p rest, (normalizeProviders (p :: rest)).map (fun q => q.is_default)
        = true :: rest.map (fun _ => false)) ∧
    (∀ targetId, (l.map (fun p => p.id)).count targetId = 1 →
      countDefaults (handleSetDefault targetId l) = 1) ∧
    (∀ removeId freshId, countDefaults l = 1 →
      countDefaults (handleRemoveProvider removeId freshId l) = 1) := by
  exact ⟨countDefaults_normalize l,
    fun p rest => normalizeProviders_flags p rest,
    fun targetId h => countDefaults_setDefault targetId l h,
    fun removeId freshId h => countDefaults_remove removeId freshId l h⟩

/-- Witness for C10 (amended) on a concrete two-provider list. -/
theorem providers_single_default_witness :
    countDefaults (normalizeProviders
      [createEmptyProvider "a" false, createEmptyProvider "b" true]) = 1 ∧
    countDefaults (handleSetDefault "b"
      [createEmptyProvider "a" false, createEmptyProvider "b" true]) = 1 ∧
    countDefaults (handleRemoveProvider "b" "c"
      [createEmptyProvider "a" true, createEmptyProvider "b" false]) = 1 := by
  refine ⟨?_, ?_, ?_⟩
  · exact (providers_single_default
      [createEmptyProvider "a" false, createEmptyProvider "b" true]).1 (by decide)
  · exact (providers_single_default
      [createEmptyProvider "a" false, createEmptyProvider "b" true]).2.2.1 "b" (by decide)
  · exact (providers_single_default
      [createEmptyProvider "a" true, createEmptyProvider "b" false]).2.2.2 "b" "c" (by decide)

/-! ## Semantic version bumping (backend version service)

The backend version service is not among the provided sources (only its
REST callers are), so it is modelled from the specification: a version
string is three dot-separated numeric components; a bump increments the
component named by the bump kind and zeroes the lower components;
`none` leaves the version unchanged; malformed versions fail. -/

/-- The bump kinds of a prompt update (`bump?: 'major' | 'minor' |
'patch' | 'none'`). -/
inductive BumpKind where
  | major : BumpKind
  | minor : BumpKind
  | patch : BumpKind
  | none : BumpKind
deriving DecidableEq

/-- Split a character list on a separator character (the splitting
underlying `"a.b.c".split(".")`). -/
def splitOnChar (sep : Char) : Str → List Str
  | [] => [[]]
  | c :: rest =>
    if c = sep then [] :: splitOnChar sep rest
    else
      match splitOnChar sep rest with
      | [] => [[c]]
      | l :: ls => (c :: l) :: ls

/-- One decimal digit's value, when the character is a digit. -/
def charDigit : Char → Option Nat
  | c => if '0' ≤ c ∧ c ≤ '9' then some (c.toNat - '0'.toNat) else Option.none

/-- Accumulating decimal parse of a digit run. -/
def digitsToNat (acc : Nat) : Str → Option Nat
  | [] => some acc
  | c :: rest =>
    match charDigit c with
    | some d => digitsToNat (acc * 10 + d) rest
    | Option.none => Option.none

/-- A numeric version component: a non-empty digit run. -/
def parseComponent : Str → Option Nat
  | [] => Option.none
  | l => digitsToNat 0 l

/-- Modelled from the spec: a well-formed version string is three
dot-separated numeric components (`"1.2.3"`); anything else is
malformed. -/
def parseVersion (s : String) : Option (Nat × Nat × Nat) :=
  match (splitOnChar '.' s.data).map parseComponent with
  | [some a, some b, some c] => some (a, b, c)
  | _ => Option.none

/-- Decimal digit characters of a natural number. -/
def natChars (n : Nat) : Str := Nat.toDigits 10 n

/-- Rendering of a version triple back to a string. -/
def formatVersion : Nat × Nat × Nat → String
  | (a, b, c) => String.mk (natChars a ++ '.' :: natChars b ++ '.' :: natChars c)

/-- Modelled from the spec: increment the component named by the bump
kind and zero the lower components; `none` changes nothing. -/
def nextVersion : Nat × Nat × Nat → BumpKind → Nat × Nat × Nat
  | (a, _, _), BumpKind.major => (a + 1, 0, 0)
  | (a, b, _), BumpKind.minor => (a, b + 1, 0)
  | (a, b, c), BumpKind.patch => (a, b, c + 1)
  | v, BumpKind.none => v

/-- Modelled from the spec: the version-bump operation on a version
string — parse, fail on malformed input, bump; `none` leaves the string
unchanged. -/
def bumpVersionString (s : String) (k : BumpKind) : Option String :=
  match parseVersion s with
  | Option.none => Option.none
  | some v =>
    match k with
    | BumpKind.none => some s
    | _ => some (formatVersion (nextVersion v k))

/-- Strict lexicographic order on version triples. -/
def versionLt (v w : Nat × Nat × Nat) : Prop :=
  v.1 < w.1 ∨ (v.1 = w.1 ∧ (v.2.1 < w.2.1 ∨ (v.2.1 = w.2.1 ∧ v.2.2 < w.2.2)))

/-- C4: bumping increments the named component and zeroes lower ones,
is strictly increasing for major/minor/patch, is the identity under
`none`, and on `"1.2.3"` yields `"1.3.0"` for `minor` and `"1.2.3"` for
`none`. -/
theorem bump_monotonic_and_identity :
    bumpVersionString "1.2.3" BumpKind.minor = some "1.3.0" ∧
    bumpVersionString "1.2.3" BumpKind.none = some "1.2.3" ∧
    (∀ a b c : Nat, nextVersion (a, b, c) BumpKind.major = (a + 1, 0, 0) ∧
      nextVersion (a, b, c) BumpKind.minor = (a, b + 1, 0) ∧
      nextVersion (a, b, c) BumpKind.patch = (a, b, c + 1)) ∧
    (∀ v : Nat × Nat × Nat, versionLt v (nextVersion v BumpKind.major) ∧
      versionLt v (nextVersion v BumpKind.minor) ∧
      versionLt v (nextVersion v BumpKind.patch) ∧
      nextVersion v BumpKind.none = v) ∧
    (∀ s : String, bumpVersionString s BumpKind.none = Option.none ∨
      bumpVersionString s BumpKind.none = some s) := by
  refine ⟨by decide, by decide, fun a b c => ⟨rfl, rfl, rfl⟩, ?_, ?_⟩
  · rintro ⟨a, b, c⟩
    refine ⟨?_, ?_, ?_, rfl⟩ <;> (dsimp only [versionLt, nextVersion]; omega)
  · intro s
    unfold bumpVersionString
    cases parseVersion s with
    | none => exact Or.inl rfl
    | some v => exact Or.inr rfl

/-! ## Version-bump failure on malformed versions (backend update
endpoint)

The prompt update endpoint is modelled from the specification: a prompt
whose stored version string is malformed makes the operation fail with
a 4xx validation error, leaving the store unchanged. -/

/-- A stored prompt record (the fields relevant to version bumping). -/
structure PromptRec where
  id : String
  project_id : String
  name : String
  version : String
  content : String
deriving DecidableEq

/-- Modelled from the spec: the version-bump part of a prompt update —
a malformed stored version fails with a 400 validation error instead of
guessing a next version. -/
def updatePromptVersion (p : PromptRec) (k : BumpKind) (newContent : String) :
    Except (Nat × String) PromptRec :=
  match parseVersion p.version with
  | Option.none => Except.error (400, "malformed version string")
  | some v =>
    Except.ok { p with
      version := match k with
        | BumpKind.none => p.version
        | _ => formatVersion (nextVersion v k),
      content := newContent }

/-- Modelled from the spec: the store-level effect of a prompt update —
on a validation error the store is returned unchanged together with the
error. -/
def applyUpdate (store : List PromptRec) (pid : String) (k : BumpKind)
    (newContent : String) : List PromptRec × Option (Nat × String) :=
  match store.find? (fun q => q.id == pid) with
  | Option.none => (store, some (404, "prompt not found"))
  | some p =>
    match updatePromptVersion p k newContent with
    | Except.error e => (store, some e)
    | Except.ok p' => (store.map (fun q => if q.id == pid then p' else q), Option.none)

/-- C5: updating a prompt whose stored version string is malformed
fails with a 4xx validation error, produces no guessed next version,
and leaves the store unchanged. -/
theorem malformed_version_fails_without_change (store : List PromptRec)
    (pid : String) (k : BumpKind) (newContent : String) (p : PromptRec)
    (hfind : store.find? (fun q => q.id == pid) = some p)
    (hbad : parseVersion p.version = Option.none) :
    (applyUpdate store pid k newContent).1 = store ∧
    (∃ msg, (applyUpdate store pid k newContent).2 = some (400, msg)) ∧
    (400 ≤ 400 ∧ 400 < 500) ∧
    updatePromptVersion p k newContent
      = Except.error (400, "malformed version string") := by
  have hupd : updatePromptVersion p k newContent
      = Except.error (400, "malformed version string") := by
    unfold updatePromptVersion
    rw [hbad]
  have happ : applyUpdate store pid k newContent
      = (store, some (400, "malformed version string")) := by
    unfold applyUpdate
    rw [hfind]
    dsimp only
    rw [hupd]
  rw [happ]
  exact ⟨rfl, ⟨"malformed version string", rfl⟩, ⟨by omega, by omega⟩, hupd⟩

/-- A concrete stored prompt whose version string is malformed. -/
def badVersionPrompt : PromptRec :=
  { id := "p1", project_id := "j1", name := "n", version := "abc", content := "old" }

/-- Witness for C5 on a one-prompt store whose version is `"abc"`. -/
theorem malformed_version_fails_without_change_witness :
    (applyUpdate [badVersionPrompt] "p1" BumpKind.minor "new").1 = [badVersionPrompt] ∧
    (∃ msg, (applyUpdate [badVersionPrompt] "p1" BumpKind.minor "new").2
      = some (400, msg)) := by
  have h := malformed_version_fails_without_change [badVersionPrompt] "p1"
    BumpKind.minor "new" badVersionPrompt (by decide) (by decide)
  exact ⟨h.1, h.2.1⟩

/-! ## Diff computation (backend diff service)

The backend diff service is not among the provided sources, so it is
modelled from the specification: a line-level diff of the two contents
computed by a standard longest-common-subsequence algorithm, addition
and deletion counts, a change-rate ratio (changed units over total
units), and an HTML fragment marking insertions and deletions. -/

/-- One unit of a computed diff. -/
inductive DiffOp where
  | keep (t : Str) : DiffOp
  | del (t : Str) : DiffOp
  | ins (t : Str) : DiffOp
deriving DecidableEq

/-- Length of a longest common subsequence of two token lists. -/
def lcsLen : List Str → List Str → Nat
  | [], _ => 0
  | _ :: _, [] => 0
  | x :: xs, y :: ys =>
    if x = y then lcsLen xs ys + 1
    else max (lcsLen xs (y :: ys)) (lcsLen (x :: xs) ys)
termination_by xs ys => xs.length + ys.length

/-- Modelled from the spec: an LCS-based token diff keeping common
tokens and emitting deletions from the old side and insertions from the
new side. -/
def diffTokens : List Str → List Str → List DiffOp
  | [], [] => []
  | [], y :: ys => DiffOp.ins y :: diffTokens [] ys
  | x :: xs, [] => DiffOp.del x :: diffTokens xs []
  | x :: xs, y :: ys =>
    if x = y then DiffOp.keep x :: diffTokens xs ys
    else if lcsLen (x :: xs) ys ≤ lcsLen xs (y :: ys) then
      DiffOp.del x :: diffTokens xs (y :: ys)
    else DiffOp.ins y :: diffTokens (x :: xs) ys
termination_by xs ys => xs.length + ys.length

/-- Number of inserted units of a diff. -/
def insCount (d : List DiffOp) : Nat :=
  (d.filter (fun o => match o with | DiffOp.ins _ => true | _ => false)).length

/-- Number of deleted units of a diff. -/
def delCount (d : List DiffOp) : Nat :=
  (d.filter (fun o => match o with | DiffOp.del _ => true | _ => false)).length

/-- Modelled from the spec: the change rate is changed units over total
units (zero for an empty diff). -/
def changeRate (d : List DiffOp) : ℚ :=
  if d.length = 0 then 0 else ((insCount d + delCount d : Nat) : ℚ) / (d.length : ℚ)

/-- Modelled from the spec: the rendered HTML fragment wrapping
insertions and deletions in `<ins>`/`<del>` tags. -/
def renderHtml : List DiffOp → Str
  | [] => []
  | DiffOp.keep t :: rest => t ++ '\n' :: renderHtml rest
  | DiffOp.del t :: rest =>
    "<del>".data ++ t ++ "</del>".data ++ '\n' :: renderHtml rest
  | DiffOp.ins t :: rest =>
    "<ins>".data ++ t ++ "</ins>".data ++ '\n' :: renderHtml rest

/-- The result record returned by the diff endpoint. -/
structure DiffOutcome where
  additions : Nat
  deletions : Nat
  change_rate : ℚ
  diff_html : Str
deriving DecidableEq

/-- Modelled from the spec: the diff of two content strings — tokenize
into lines, diff, count, rate, render. -/
def computeDiff (oldContent newContent : Str) : DiffOutcome :=
  let d := diffTokens (splitOnNl oldContent) (splitOnNl newContent)
  { additions := insCount d, deletions := delCount d,
    change_rate := changeRate d, diff_html := renderHtml d }

theorem diffTokens_self (l : List Str) : diffTokens l l = l.map DiffOp.keep := by
  induction l with
  | nil => simp [diffTokens]
  | cons x xs ih =>
    unfold diffTokens
    rw [if_pos rfl, ih, List.map_cons]

/-- C6: the diff of a content string against itself reports zero
additions, zero deletions and a zero change rate, and the diff is
deterministic — identical inputs always produce identical counts, rate
and HTML. -/
theorem diff_self_zero_and_deterministic :
    (∀ s : Str, (computeDiff s s).additions = 0 ∧ (computeDiff s s).deletions = 0 ∧
      (computeDiff s s).change_rate = 0) ∧
    (∀ a b : Str, computeDiff a b = computeDiff a b) := by
  have hins : ∀ l : List Str, insCount (l.map DiffOp.keep) = 0 := by
    intro l
    unfold insCount
    rw [List.length_eq_zero, List.filter_eq_nil_iff]
    intro o ho
    rw [List.mem_map] at ho
    obtain ⟨t, -, rfl⟩ := ho
    simp
  have hdel : ∀ l : List Str, delCount (l.map DiffOp.keep) = 0 := by
    intro l
    unfold delCount
    rw [List.length_eq_zero, List.filter_eq_nil_iff]
    intro o ho
    rw [List.mem_map] at ho
    obtain ⟨t, -, rfl⟩ := ho
    simp
  refine ⟨?_, fun a b => rfl⟩
  intro s
  unfold computeDiff
  rw [diffTokens_self]
  dsimp only
  refine ⟨hins _, hdel _, ?_⟩
  unfold changeRate
  by_cases h : (((splitOnNl s).map DiffOp.keep).length = 0)
  · rw [if_pos h]
  · rw [if_neg h, hins, hdel]
    simp

/-! ## Variable extraction (`TestPrompt` page, variable effect)

The playground extracts variables by running the global regular
expression `escape(prefix) + "\s*(.+?)\s*" + escape(suffix)` over every
message and collecting the trimmed first capture groups into a `Set`.
The scanner below embeds that regex's backtracking semantics for this
pattern shape: literal opening delimiter, greedy whitespace run, lazy
non-empty run of non-line-terminator characters, greedy whitespace run,
literal closing delimiter; after a match the scan resumes past the
match, otherwise it advances one character. The effect returns early
(extracting nothing) when either delimiter is empty. -/

theorem dropWhile_dropWhile (p : Char → Bool) (l : Str) :
    (l.dropWhile p).dropWhile p = l.dropWhile p := by
  induction l with
  | nil => rfl
  | cons c cs ih =>
    rw [List.dropWhile_cons]
    by_cases h : p c
    · rw [if_pos h]; exact ih
    · rw [if_neg h, List.dropWhile_cons, if_neg h]

theorem dropWhile_head_cases (p : Char → Bool) (l : Str) :
    l.dropWhile p = [] ∨ ∃ a as, l.dropWhile p = a :: as ∧ p a = false := by
  induction l with
  | nil => exact Or.inl rfl
  | cons c cs ih =>
    rw [List.dropWhile_cons]
    by_cases h : p c
    · rw [if_pos h]; exact ih
    · rw [if_neg h]
      exact Or.inr ⟨c, cs, rfl, Bool.eq_false_iff.mpr h⟩

theorem trimChars_front_trimmed (l : Str) :
    (trimChars l).dropWhile isWs = trimChars l := by
  have hdecomp : l.dropWhile isWs
      = ((l.dropWhile isWs).reverse.dropWhile isWs).reverse
        ++ ((l.dropWhile isWs).reverse.takeWhile isWs).reverse := by
    conv_lhs => rw [← (l.dropWhile isWs).reverse_reverse]
    conv_lhs =>
      rw [← List.takeWhile_append_dropWhile (p := isWs)
        (l := (l.dropWhile isWs).reverse)]
    rw [List.reverse_append]
  show (((l.dropWhile isWs).reverse.dropWhile isWs).reverse).dropWhile isWs
      = ((l.dropWhile isWs).reverse.dropWhile isWs).reverse
  cases hR : ((l.dropWhile isWs).reverse.dropWhile isWs).reverse with
  | nil => rfl
  | cons a as =>
    rcases dropWhile_head_cases isWs l with hnil | ⟨b, bs, hb, hpb⟩
    · rw [hnil] at hR
      simp at hR
    · rw [hR, hb] at hdecomp
      simp only [List.cons_append, List.cons.injEq] at hdecomp
      obtain ⟨rfl, -⟩ := hdecomp
      rw [List.dropWhile_cons, if_neg (by simp [hpb])]

theorem trimChars_idem (l : Str) : trimChars (trimChars l) = trimChars l := by
  show (((trimChars l).dropWhile isWs).reverse.dropWhile isWs).reverse = trimChars l
  rw [trimChars_front_trimmed]
  unfold trimChars
  rw [List.reverse_reverse, dropWhile_dropWhile]

/-- Length of the leading whitespace run of a string: the largest
amount the greedy `\s*` can consume. -/
def wsRunLen (l : Str) : Nat := (l.takeWhile isWs).length

theorem take_all_ws (l : Str) (k : Nat) (hk : k ≤ wsRunLen l) :
    (l.take k).all isWs := by
  have heq : l.take k = (l.takeWhile isWs).take k := by
    conv_lhs => rw [← List.takeWhile_append_dropWhile (p := isWs) (l := l)]
    exact List.take_append_of_le_length hk
  rw [heq, List.all_eq_true]
  intro c hc
  exact List.mem_takeWhile_imp ((l.takeWhile isWs).take_subset k hc)

/-- The trailing `\s* suffix` of the pattern: try the greedy whitespace
amounts from `b` downwards; on success return the remainder after the
closing delimiter. -/
def tryTail (suf rest : Str) : Nat → Option Str
  | 0 => if hasPre suf rest then some (rest.drop suf.length) else Option.none
  | b + 1 =>
    if hasPre suf (rest.drop (b + 1)) then some ((rest.drop (b + 1)).drop suf.length)
    else tryTail suf rest b

/-- The lazy `(.+?)` of the pattern: extend the capture one
non-line-terminator character at a time, after each extension trying
the trailing `\s* suffix`. -/
def findCore (suf : Str) (acc : Str) : Str → Option (Str × Str)
  | [] => Option.none
  | c :: rest =>
    if isDotChar c then
      match tryTail suf rest (wsRunLen rest) with
      | some rem => some (acc ++ [c], rem)
      | Option.none => findCore suf (acc ++ [c]) rest
    else Option.none

/-- The leading greedy `\s*` of the pattern: try the whitespace amounts
from `a` downwards, running the capture search after each. -/
def tryHead (suf m : Str) : Nat → Option (Str × Str)
  | 0 => findCore suf [] m
  | a + 1 =>
    match findCore suf [] (m.drop (a + 1)) with
    | some r => some r
    | Option.none => tryHead suf m a

/-- One attempt of the whole pattern at the current position: the
literal opening delimiter followed by the rest of the pattern. -/
def tryMatchHere (pre suf l : Str) : Option (Str × Str) :=
  if hasPre pre l then
    tryHead suf (l.drop pre.length) (wsRunLen (l.drop pre.length))
  else Option.none

/-- The global `exec` loop over one message: at each position try the
pattern; on a match record the trimmed capture and resume after the
match, otherwise advance one character. The fuel starts at the message
length, which bounds the number of steps. -/
def scanMessage (pre suf : Str) : Nat → Str → List Str
  | 0, _ => []
  | _ + 1, [] => []
  | fuel + 1, c :: rest =>
    match tryMatchHere pre suf (c :: rest) with
    | some (core, rem) => trimChars core :: scanMessage pre suf fuel rem
    | Option.none => scanMessage pre suf fuel rest

/-- Insertion into a `Set` iterated in insertion order: keep the first
occurrence of each name. -/
def dedupKeepFirst (l : List Str) : List Str :=
  l.foldl (fun acc v => if v ∈ acc then acc else acc ++ [v]) []

/-- The variable-extraction effect: nothing when either delimiter is
empty, otherwise the de-duplicated trimmed captures of all messages in
order. -/
def extractVariables (pre suf : Str) (msgs : List Str) : List Str :=
  if pre = [] ∨ suf = [] then []
  else dedupKeepFirst ((msgs.map (fun m => scanMessage pre suf m.length m)).flatten)

/-- The first occurrence of the closing delimiter: the content before
it and the remainder after it. -/
def firstSuffixSplit (suf : Str) : Str → Option (Str × Str)
  | [] => Option.none
  | c :: rest =>
    if hasPre suf (c :: rest) then some ([], (c :: rest).drop suf.length)
    else
      match firstSuffixSplit suf rest with
      | some (mid, after) => some (c :: mid, after)
      | Option.none => Option.none

/-- The claim's reading of extraction over one message: at each opening
delimiter take everything up to the nearest following closing delimiter
as the placeholder name, trimmed. -/
def specScanMessage (pre suf : Str) : Nat → Str → List Str
  | 0, _ => []
  | _ + 1, [] => []
  | fuel + 1, c :: rest =>
    if hasPre pre (c :: rest) then
      match firstSuffixSplit suf ((c :: rest).drop pre.length) with
      | some (mid, after) => trimChars mid :: specScanMessage pre suf fuel after
      | Option.none => specScanMessage pre suf fuel rest
    else specScanMessage pre suf fuel rest

/-- The claim's reading of the whole extraction: the distinct trimmed
names between each opening delimiter and the nearest following closing
delimiter, none when either delimiter is empty. -/
def specExtractVariables (pre suf : Str) (msgs : List Str) : List Str :=
  if pre = [] ∨ suf = [] then []
  else dedupKeepFirst ((msgs.map (fun m => specScanMessage pre suf m.length m)).flatten)

theorem tryTail_sound (suf rest : Str) :
    ∀ b rem, b ≤ wsRunLen rest → tryTail suf rest b = some rem →
      ∃ w2, rest = w2 ++ suf ++ rem ∧ w2.all isWs := by
  intro b
  induction b with
  | zero =>
    intro rem _ h
    unfold tryTail at h
    by_cases hp : hasPre suf rest
    · rw [if_pos hp, Option.some.injEq] at h
      obtain ⟨t, rfl⟩ := (hasPre_iff suf rest).mp hp
      rw [List.drop_left] at h
      refine ⟨[], ?_, rfl⟩
      rw [List.nil_append, h]
    · rw [if_neg hp] at h
      exact Option.noConfusion h
  | succ b ih =>
    intro rem hb h
    unfold tryTail at h
    by_cases hp : hasPre suf (rest.drop (b + 1))
    · rw [if_pos hp, Option.some.injEq] at h
      obtain ⟨t, ht⟩ := (hasPre_iff suf (rest.drop (b + 1))).mp hp
      rw [ht, List.drop_left] at h
      refine ⟨rest.take (b + 1), ?_, take_all_ws rest (b + 1) hb⟩
      conv_lhs => rw [← List.take_append_drop (b + 1) rest]
      rw [ht, h, List.append_assoc]
    · rw [if_neg hp] at h
      exact ih rem (by omega) h

theorem findCore_sound (suf : Str) :
    ∀ rest acc core rem, findCore suf acc rest = some (core, rem) →
      ∃ ext w2, core = acc ++ ext ∧ ext ≠ [] ∧ ext.all isDotChar ∧
        rest = ext ++ w2 ++ suf ++ rem ∧ w2.all isWs := by
  intro rest
  induction rest with
  | nil =>
    intro acc core rem h
    exact Option.noConfusion h
  | cons c cs ih =>
    intro acc core rem h
    unfold findCore at h
    by_cases hdot : isDotChar c
    · rw [if_pos hdot] at h
      cases htt : tryTail suf cs (wsRunLen cs) with
      | some rem0 =>
        rw [htt] at h
        simp only [Option.some.injEq, Prod.mk.injEq] at h
        obtain ⟨hcore, hrem⟩ := h
        obtain ⟨w2, hw2, hws⟩ := tryTail_sound suf cs (wsRunLen cs) rem0 (le_refl _) htt
        refine ⟨[c], w2, hcore.symm, by simp, by simp [hdot], ?_, hws⟩
        rw [hw2, hrem]
        simp [List.append_assoc]
      | none =>
        rw [htt] at h
        dsimp only at h
        obtain ⟨ext, w2, hcore, hne, hdotAll, hrest, hws⟩ := ih (acc ++ [c]) core rem h
        refine ⟨c :: ext, w2, ?_, by simp, ?_, ?_, hws⟩
        · rw [hcore]
          simp
        · rw [List.all_cons, hdotAll, hdot]
          rfl
        · rw [hrest]
          simp [List.append_assoc]
    · rw [if_neg hdot] at h
      exact Option.noConfusion h

theorem tryHead_sound (suf m : Str) :
    ∀ a core rem, a ≤ wsRunLen m → tryHead suf m a = some (core, rem) →
      ∃ w1 w2, m = w1 ++ core ++ w2 ++ suf ++ rem ∧ w1.all isWs ∧
        core ≠ [] ∧ core.all isDotChar ∧ w2.all isWs := by
  intro a
  induction a with
  | zero =>
    intro core rem _ h
    unfold tryHead at h
    obtain ⟨ext, w2, hcore, hne, hdotAll, hrest, hws⟩ := findCore_sound suf m [] core rem h
    rw [List.nil_append] at hcore
    subst hcore
    refine ⟨[], w2, ?_, rfl, hne, hdotAll, hws⟩
    rw [List.nil_append, hrest]
  | succ a ih =>
    intro core rem ha h
    unfold tryHead at h
    cases hfc : findCore suf [] (m.drop (a + 1)) with
    | some r =>
      rw [hfc] at h
      dsimp only at h
      rw [h] at hfc
      obtain ⟨ext, w2, hcore, hne, hdotAll, hrest, hws⟩ :=
        findCore_sound suf (m.drop (a + 1)) [] core rem hfc
      rw [List.nil_append] at hcore
      subst hcore
      refine ⟨m.take (a + 1), w2, ?_, take_all_ws m (a + 1) ha, hne, hdotAll, hws⟩
      conv_lhs => rw [← List.take_append_drop (a + 1) m]
      rw [hrest]
      simp [List.append_assoc]
    | none =>
      rw [hfc] at h
      dsimp only at h
      exact ih core rem (by omega) h

theorem tryMatchHere_sound (pre suf l core rem : Str)
    (h : tryMatchHere pre suf l = some (core, rem)) :
    ∃ w1 w2, l = pre ++ w1 ++ core ++ w2 ++ suf ++ rem ∧ w1.all isWs ∧
      core ≠ [] ∧ core.all isDotChar ∧ w2.all isWs := by
  unfold tryMatchHere at h
  by_cases hp : hasPre pre l
  · rw [if_pos hp] at h
    obtain ⟨t, ht⟩ := (hasPre_iff pre l).mp hp
    have hdrop : l.drop pre.length = t := by
      rw [ht, List.drop_left]
    rw [hdrop] at h
    obtain ⟨w1, w2, hm, hw1, hne, hdot, hw2⟩ :=
      tryHead_sound suf t (wsRunLen t) core rem (le_refl _) h
    refine ⟨w1, w2, ?_, hw1, hne, hdot, hw2⟩
    rw [ht, hm]
    simp [List.append_assoc]
  · rw [if_neg hp] at h
    exact Option.noConfusion h

theorem scanMessage_sound (pre suf : Str) :
    ∀ fuel l v, v ∈ scanMessage pre suf fuel l →
      ∃ pre0 w1 core w2 post, l = pre0 ++ pre ++ w1 ++ core ++ w2 ++ suf ++ post ∧
        v = trimChars core ∧ core ≠ [] ∧ core.all isDotChar ∧
        w1.all isWs ∧ w2.all isWs := by
  intro fuel
  induction fuel with
  | zero =>
    intro l v h
    exact absurd h (List.not_mem_nil v)
  | succ fuel ih =>
    intro l v h
    cases l with
    | nil => exact absurd h (List.not_mem_nil v)
    | cons c cs =>
      unfold scanMessage at h
      cases hm : tryMatchHere pre suf (c :: cs) with
      | some pr =>
        obtain ⟨core, rem⟩ := pr
        rw [hm] at h
        dsimp only at h
        rw [List.mem_cons] at h
        obtain ⟨w1, w2, hl, hw1, hne, hdot, hw2⟩ :=
          tryMatchHere_sound pre suf (c :: cs) core rem hm
        rcases h with rfl | h
        · refine ⟨[], w1, core, w2, rem, ?_, rfl, hne, hdot, hw1, hw2⟩
          rw [hl]
          simp [List.append_assoc]
        · obtain ⟨pre0, w1', core', w2', post, hrem, hv, hne', hdot', hw1', hw2'⟩ :=
            ih rem v h
          refine ⟨pre ++ w1 ++ core ++ w2 ++ suf ++ pre0, w1', core', w2', post,
            ?_, hv, hne', hdot', hw1', hw2'⟩
          rw [hl, hrem]
          simp [List.append_assoc]
      | none =>
        rw [hm] at h
        dsimp only at h
        obtain ⟨pre0, w1', core', w2', post, hcs, hv, hne', hdot', hw1', hw2'⟩ :=
          ih cs v h
        refine ⟨c :: pre0, w1', core', w2', post, ?_, hv, hne', hdot', hw1', hw2'⟩
        rw [List.cons_append]
        rw [hcs]
        simp [List.append_assoc]

theorem dedupFold_nodup (l : List Str) :
    ∀ acc : List Str, acc.Nodup →
      (l.foldl (fun acc v => if v ∈ acc then acc else acc ++ [v]) acc).Nodup := by
  induction l with
  | nil =>
    intro acc h
    exact h
  | cons x xs ih =>
    intro acc h
    rw [List.foldl_cons]
    by_cases hx : x ∈ acc
    · rw [if_pos hx]
      exact ih acc h
    · rw [if_neg hx]
      refine ih _ ?_
      simp [List.nodup_append, h, hx]

theorem dedupFold_mem (l : List Str) :
    ∀ (acc : List Str) v,
      v ∈ l.foldl (fun acc v => if v ∈ acc then acc else acc ++ [v]) acc →
      v ∈ acc ∨ v ∈ l := by
  induction l with
  | nil =>
    intro acc v h
    exact Or.inl h
  | cons x xs ih =>
    intro acc v h
    rw [List.foldl_cons] at h
    by_cases hx : x ∈ acc
    · rw [if_pos hx] at h
      rcases ih acc v h with h | h
      · exact Or.inl h
      · exact Or.inr (List.mem_cons_of_mem x h)
    · rw [if_neg hx] at h
      rcases ih (acc ++ [x]) v h with h | h
      · rw [List.mem_append, List.mem_singleton] at h
        rcases h with h | rfl
        · exact Or.inl h
        · exact Or.inr (List.mem_cons_self v xs)
      · exact Or.inr (List.mem_cons_of_mem x h)

theorem dedupKeepFirst_nodup (l : List Str) : (dedupKeepFirst l).Nodup :=
  dedupFold_nodup l [] List.nodup_nil

theorem dedupKeepFirst_subset (l : List Str) (v : Str) (h : v ∈ dedupKeepFirst l) :
    v ∈ l := by
  rcases dedupFold_mem l [] v h with h | h
  · exact absurd h (List.not_mem_nil v)
  · exact h

/-- C7 counterexample: on the message `"{{a\nb}}"` the claim's reading
— the trimmed name between the opening delimiter and the nearest
following closing delimiter — yields `"a\nb"`, but the extraction
returns nothing, because the regular expression's `.` cannot cross the
newline inside the name. -/
theorem extraction_misses_newline_name :
    extractVariables ['\x7b', '\x7b'] ['\x7d', '\x7d']
        [['\x7b', '\x7b', 'a', '\n', 'b', '\x7d', '\x7d']] = [] ∧
    specExtractVariables ['\x7b', '\x7b'] ['\x7d', '\x7d']
        [['\x7b', '\x7b', 'a', '\n', 'b', '\x7d', '\x7d']] = [['a', '\n', 'b']] ∧
    extractVariables ['\x7b', '\x7b'] ['\x7d', '\x7d']
        [['\x7b', '\x7b', 'a', '\n', 'b', '\x7d', '\x7d']]
      ≠ specExtractVariables ['\x7b', '\x7b'] ['\x7d', '\x7d']
        [['\x7b', '\x7b', 'a', '\n', 'b', '\x7d', '\x7d']] := by
  refine ⟨by decide, by decide, by decide⟩

/-- C7 (amended): if either delimiter is empty no variables are
extracted; otherwise the extraction returns a duplicate-free list of
names, each one already trimmed, free of line terminators, and equal to
the trimmed content of some prefix–suffix delimited span of a message
(the delimiter pair around a whitespace-padded single-line core); a
placeholder whose name spans a newline is not extracted. -/
theorem extraction_trimmed_sound (pre suf : Str) (msgs : List Str) :
    (pre = [] → extractVariables pre suf msgs = []) ∧
    (suf = [] → extractVariables pre suf msgs = []) ∧
    (extractVariables pre suf msgs).Nodup ∧
    (∀ v, v ∈ extractVariables pre suf msgs →
      trimChars v = v ∧ v.all isDotChar ∧
      ∃ msg, msg ∈ msgs ∧ ∃ pre0 w1 core w2 post,
        msg = pre0 ++ pre ++ w1 ++ core ++ w2 ++ suf ++ post ∧
        v = trimChars core ∧ core ≠ [] ∧ core.all isDotChar ∧
        w1.all isWs ∧ w2.all isWs) := by
  refine ⟨?_, ?_, ?_, ?_⟩
  · intro h
    unfold extractVariables
    rw [if_pos (Or.inl h)]
  · intro h
    unfold extractVariables
    rw [if_pos (Or.inr h)]
  · unfold extractVariables
    by_cases h : pre = [] ∨ suf = []
    · rw [if_pos h]
      exact List.nodup_nil
    · rw [if_neg h]
      exact dedupKeepFirst_nodup _
  · intro v hv
    unfold extractVariables at hv
    by_cases h : pre = [] ∨ suf = []
    · rw [if_pos h] at hv
      exact absurd hv (List.not_mem_nil v)
    · rw [if_neg h] at hv
      have hv2 := dedupKeepFirst_subset _ v hv
      rw [List.mem_flatten] at hv2
      obtain ⟨inner, hinner, hvin⟩ := hv2
      rw [List.mem_map] at hinner
      obtain ⟨msg, hmsg, rfl⟩ := hinner
      obtain ⟨pre0, w1, core, w2, post, hdec, hveq, hne, hdotc, hw1, hw2⟩ :=
        scanMessage_sound pre suf msg.length msg v hvin
      refine ⟨?_, ?_, msg, hmsg, pre0, w1, core, w2, post, hdec, hveq, hne, hdotc,
        hw1, hw2⟩
      · rw [hveq, trimChars_idem]
      · rw [hveq]
        rw [List.all_eq_true] at hdotc ⊢
        intro c hc
        exact hdotc c ((trimChars_sublist core).subset hc)

/-- Witness for C7 (amended): the empty-suffix guard on a concrete
message, and the soundness clause applied to the name extracted from
`"{{ a }}"`. -/
theorem extraction_trimmed_sound_witness :
    extractVariables ['\x7b', '\x7b'] [] [['x']] = [] ∧
    (trimChars ['a'] = ['a'] ∧ (['a'] : Str).all isDotChar ∧
      ∃ msg, msg ∈ [['\x7b', '\x7b', ' ', 'a', ' ', '\x7d', '\x7d']] ∧
        ∃ pre0 w1 core w2 post,
          msg = pre0 ++ ['\x7b', '\x7b'] ++ w1 ++ core ++ w2 ++ ['\x7d', '\x7d'] ++ post ∧
          ['a'] = trimChars core ∧ core ≠ [] ∧ core.all isDotChar ∧
          w1.all isWs ∧ w2.all isWs) := by
  refine ⟨(extraction_trimmed_sound ['\x7b', '\x7b'] [] [['x']]).2.1 rfl, ?_⟩
  exact (extraction_trimmed_sound ['\x7b', '\x7b'] ['\x7d', '\x7d']
    [['\x7b', '\x7b', ' ', 'a', ' ', '\x7d', '\x7d']]).2.2.2 ['a'] (by decide)

end PromptManager
